import Mathlib

/-!
Shallow embedding of the combinatorial enumeration core of
include/fplus/generate.h (namespace fplus), together with the
specification-side description of the enumeration order, and proofs of the
behavioural claims about the generate / product / permutations /
combinations / fill / infixes family.

Containers are modelled as Lean lists; size_t values are modelled as Nat
with the wrap-around of the single subtraction that can underflow made
explicit.  Only generate.h is part of the sources; the generic collaborators
it calls (transform, keep_if, append, all_idxs, elems_at_idxs, get_range and
the three tuple predicates) are modelled from the specification text, each
marked as such in its doc comment.
-/

namespace fplus

/-- Modelled from the spec: the generic higher-order transform collaborator
(sections 1 and 6), mapping a function over a sequence, preserving order. -/
def transform (f : α → β) (xs : List α) : List β := xs.map f

/-- Modelled from the spec: the generic filter collaborator keep_if
(sections 1 and 6), keeping exactly the elements satisfying the predicate,
preserving relative order. -/
def keep_if (p : α → Bool) (xs : List α) : List α := xs.filter p

/-- Modelled from the spec: the generic append / concatenation collaborator
(section 6, sequence capability). -/
def append (xs ys : List α) : List α := xs ++ ys

/-- Modelled from the spec: the index domain, the ordered sequence of the n
indices 0 .. n-1 of the source sequence (section 3, Domain). -/
def all_idxs (xs : List α) : List Nat := List.range xs.length

/-- Modelled from the spec: resolving an index tuple through the source
sequence into actual elements, same length and order as the index tuple
(section 3, Element tuple).  Indices are always in range where this is used,
so the default value is irrelevant. -/
def elems_at_idxs [Inhabited α] (idxs : List Nat) (xs : List α) : List α :=
  idxs.map (fun i => xs.getD i default)

/-- Modelled from the spec: the contiguous sub-sequence xs[a .. b)
collaborator used by the window extractor (section 4.2). -/
def get_range (a b : Nat) (xs : List α) : List α := (xs.drop a).take (b - a)

/-- Modelled from the spec (section 4.4): all_unique is true iff no two
positions hold equal values. -/
def all_unique : List Nat → Bool
  | [] => true
  | x :: r => r.all (fun e => !(e == x)) && all_unique r

/-- Modelled from the spec (section 4.4): is_strictly_sorted is true iff each
value is strictly greater than its predecessor. -/
def is_strictly_sorted : List Nat → Bool
  | [] => true
  | [_] => true
  | x :: y :: r => decide (x < y) && is_strictly_sorted (y :: r)

/-- Modelled from the spec (section 4.4): is_sorted is true iff each value is
greater than or equal to its predecessor. -/
def is_sorted : List Nat → Bool
  | [] => true
  | [_] => true
  | x :: y :: r => decide (x ≤ y) && is_sorted (y :: r)

/-- replicate, generate.h lines 58-63: a sequence of n copies of x. -/
def replicate (n : Nat) (x : α) : List α := List.replicate n x

/-- infixes, generate.h lines 65-82.  The assertion that the window length is
positive is modelled by returning none; otherwise the loop produces the
windows xs[idx .. idx+length) for idx = 0 .. size - length. -/
def infixes (length : Nat) (xs : List α) : Option (List (List α)) :=
  if length = 0 then none
  else if xs.length < length then some []
  else some ((List.range (xs.length - length + 1)).map
    (fun idx => get_range idx (idx + length) xs))

/-- The decrement performed on the size_t value reps_left in
product_idxs_helper: on every representable input (r below 2 ^ 64) this is
exactly the machine subtraction by one, which wraps around to 2 ^ 64 - 1
when r is 0. -/
def dec_size_t (r : Nat) : Nat := if r = 0 then 2 ^ 64 - 1 else r - 1

theorem dec_size_t_eq_mod (r : Nat) (h : r < 2 ^ 64) :
    dec_size_t r = (r + (2 ^ 64 - 1)) % 2 ^ 64 := by
  unfold dec_size_t
  rcases Nat.eq_zero_or_pos r with h0 | hpos
  · subst h0
    rw [if_pos rfl, Nat.zero_add, Nat.mod_eq_of_lt (by norm_num)]
  · rw [if_neg (by omega)]
    have h1 : r + (2 ^ 64 - 1) = (r - 1) + 1 * 2 ^ 64 := by omega
    rw [h1, Nat.add_mul_mod_self_right, Nat.mod_eq_of_lt (by omega)]

/-- One iteration of the loop of product_idxs_helper, generate.h lines
98-102: ys = replicate(size(xs), a), then push xs[i] onto the end of
ys[i] for every index i of ys. -/
def product_idxs_block (xs : List Nat) (a : List Nat) : List (List Nat) :=
  let ys := replicate xs.length a
  (List.range ys.length).map (fun i => ys.getD i [] ++ [xs.getD i 0])

/-- Body of the loop of product_idxs_helper, generate.h lines 96-104: for
each tuple a in acc, the block of its extensions is appended to the
result. -/
def product_idxs_step (xs : List Nat) (acc : List (List Nat)) : List (List Nat) :=
  acc.foldl (fun result a => append result (product_idxs_block xs a)) []

theorem dec_size_t_measure (r : Nat) (h : r ≠ 1) :
    (if dec_size_t r = 0 then 2 ^ 64 else dec_size_t r) <
      (if r = 0 then 2 ^ 64 else r) := by
  rcases Nat.eq_zero_or_pos r with h0 | hpos
  · subst h0
    have h1 : dec_size_t 0 = 2 ^ 64 - 1 := rfl
    have h2 : (2 : Nat) ^ 64 - 1 ≠ 0 := by norm_num
    rw [h1, if_neg h2, if_pos rfl]
    exact Nat.sub_lt (by norm_num) Nat.one_pos
  · have h2 : 2 ≤ r := by omega
    have h1 : dec_size_t r = r - 1 := by unfold dec_size_t; rw [if_neg (by omega)]
    rw [h1, if_neg (by omega), if_neg (by omega)]
    omega

/-- product_idxs_helper, generate.h lines 86-106.  The recursion keeps
extending the accumulated tuples by one position until reps_left reaches 1;
the decrement of the size_t argument wraps around to 2 ^ 64 - 1 when
reps_left is 0, so the call with reps_left = 0 does not stop early. -/
def product_idxs_helper (xs : List Nat) (acc : List (List Nat)) (reps_left : Nat) :
    List (List Nat) :=
  if h : reps_left = 1 then acc
  else product_idxs_helper xs (product_idxs_step xs acc) (dec_size_t reps_left)
termination_by (if reps_left = 0 then 2 ^ 64 else reps_left)
decreasing_by exact dec_size_t_measure reps_left h

/-- product_idxs, generate.h lines 108-118: the singleton index tuples,
extended by the helper with reps_left = power. -/
def product_idxs (power : Nat) (xs : List Nat) : List (List Nat) :=
  product_idxs_helper xs (transform (fun x => [x]) xs) power

/-- The index tuple list result_idxss built inside product, generate.h
line 130 (unfiltered). -/
def product_idxss (power : Nat) (xs : List α) : List (List Nat) :=
  product_idxs power (all_idxs xs)

/-- product, generate.h lines 122-138: every index tuple of the Cartesian
power, resolved against the source sequence. -/
def product [Inhabited α] (power : Nat) (xs : List α) : List (List α) :=
  transform (fun idxs => elems_at_idxs idxs xs) (product_idxss power xs)

/-- The filtered index tuple list result_idxss built inside permutations,
generate.h lines 149-150. -/
def permutations_idxss (power : Nat) (xs : List α) : List (List Nat) :=
  keep_if all_unique (product_idxs power (all_idxs xs))

/-- permutations, generate.h lines 140-158: the index tuples with pairwise
distinct entries, resolved against the source sequence. -/
def permutations [Inhabited α] (power : Nat) (xs : List α) : List (List α) :=
  transform (fun idxs => elems_at_idxs idxs xs) (permutations_idxss power xs)

/-- The filtered index tuple list result_idxss built inside combinations,
generate.h lines 169-170. -/
def combinations_idxss (power : Nat) (xs : List α) : List (List Nat) :=
  keep_if is_strictly_sorted (product_idxs power (all_idxs xs))

/-- combinations, generate.h lines 160-178: the strictly ascending index
tuples, resolved against the source sequence. -/
def combinations [Inhabited α] (power : Nat) (xs : List α) : List (List α) :=
  transform (fun idxs => elems_at_idxs idxs xs) (combinations_idxss power xs)

/-- The filtered index tuple list result_idxss built inside
combinations_with_replacement, generate.h lines 189-190. -/
def combinations_with_replacement_idxss (power : Nat) (xs : List α) : List (List Nat) :=
  keep_if is_sorted (product_idxs power (all_idxs xs))

/-- combinations_with_replacement, generate.h lines 180-198: the
non-decreasing index tuples, resolved against the source sequence. -/
def combinations_with_replacement [Inhabited α] (power : Nat) (xs : List α) :
    List (List α) :=
  transform (fun idxs => elems_at_idxs idxs xs)
    (combinations_with_replacement_idxss power xs)

/-- fill_left, generate.h lines 201-209. -/
def fill_left (x : α) (min_size : Nat) (xs : List α) : List α :=
  if min_size ≤ xs.length then xs
  else append (replicate (min_size - xs.length) x) xs

/-- fill_right, generate.h lines 211-219. -/
def fill_right (x : α) (min_size : Nat) (xs : List α) : List α :=
  if min_size ≤ xs.length then xs
  else append xs (replicate (min_size - xs.length) x)

/-- Modelled from the spec (section 4.3): the lexicographic enumeration of
all length p tuples over the domain xs, ordered lexicographically by the
position of each entry in xs, with the most-significant (leftmost) tuple
position varying slowest.  This is the specification-side description of the
construction order; the development proves the source-derived enumeration
equal to it. -/
def spec_lex_tuples (xs : List α) : Nat → List (List α)
  | 0 => [[]]
  | p + 1 => xs.flatMap (fun x => (spec_lex_tuples xs p).map (fun t => x :: t))

/-- product_idxs_helper with an explicit fuel bound on the recursion depth;
none means the fuel was exhausted before the base case was reached. -/
def product_idxs_helper_fuel (fuel : Nat) (xs : List Nat) (acc : List (List Nat))
    (reps_left : Nat) : Option (List (List Nat)) :=
  match fuel with
  | 0 => none
  | f + 1 =>
    if reps_left = 1 then some acc
    else product_idxs_helper_fuel f xs (product_idxs_step xs acc) (dec_size_t reps_left)

example : spec_lex_tuples ['A', 'B'] 2 = [['A', 'A'], ['A', 'B'], ['B', 'A'], ['B', 'B']] := by
  decide

/-! ### Unfolding equations for the helper -/

theorem product_idxs_helper_base (xs : List Nat) (acc : List (List Nat)) :
    product_idxs_helper xs acc 1 = acc := by
  unfold product_idxs_helper
  simp

theorem product_idxs_helper_of_ne (xs : List Nat) (acc : List (List Nat)) (r : Nat)
    (h : r ≠ 1) :
    product_idxs_helper xs acc r =
      product_idxs_helper xs (product_idxs_step xs acc) (dec_size_t r) := by
  conv_lhs => rw [product_idxs_helper]
  simp [h]

/-- The helper unrolled a fixed number of extension steps: step count k
corresponds to the call with reps_left = k + 1. -/
def product_idxs_steps (xs : List Nat) (acc : List (List Nat)) : Nat → List (List Nat)
  | 0 => acc
  | k + 1 => product_idxs_steps xs (product_idxs_step xs acc) k

theorem product_idxs_steps_succ (xs : List Nat) (acc : List (List Nat)) (k : Nat) :
    product_idxs_steps xs acc (k + 1) =
      product_idxs_steps xs (product_idxs_step xs acc) k := rfl

theorem product_idxs_helper_eq_steps (xs : List Nat) :
    ∀ k acc, product_idxs_helper xs acc (k + 1) = product_idxs_steps xs acc k := by
  intro k
  induction k with
  | zero => intro acc; exact product_idxs_helper_base xs acc
  | succ k ih =>
    intro acc
    have h1 : k + 2 ≠ 1 := by omega
    have h2 : dec_size_t (k + 2) = k + 1 := by simp [dec_size_t]
    rw [product_idxs_helper_of_ne xs acc (k + 2) h1, h2,
      ih (product_idxs_step xs acc), product_idxs_steps_succ]

theorem product_idxs_helper_zero (xs : List Nat) (acc : List (List Nat)) :
    product_idxs_helper xs acc 0 = product_idxs_steps xs acc (2 ^ 64 - 1) := by
  have h1 : (0 : Nat) ≠ 1 := by omega
  have h2 : dec_size_t 0 = 2 ^ 64 - 1 := rfl
  rw [product_idxs_helper_of_ne xs acc 0 h1, h2]
  have h3 : (2 : Nat) ^ 64 - 1 = (2 ^ 64 - 2) + 1 := by norm_num
  rw [h3, product_idxs_helper_eq_steps xs (2 ^ 64 - 2)
    (product_idxs_step xs acc), product_idxs_steps_succ]

/-! ### The step of the helper as a flatMap -/

theorem foldl_append_flatMap (f : α → List β) :
    ∀ (l : List α) (init : List β),
      l.foldl (fun r a => r ++ f a) init = init ++ l.flatMap f := by
  intro l
  induction l with
  | nil => intro init; simp
  | cons a l ih => intro init; simp [List.foldl_cons, ih, List.flatMap_cons]

theorem map_range_getD (g : β → γ) (d : β) :
    ∀ xs : List β, (List.range xs.length).map (fun i => g (xs.getD i d)) = xs.map g := by
  intro xs
  induction xs with
  | nil => rfl
  | cons x xs ih =>
    rw [List.length_cons, List.range_succ_eq_map, List.map_cons, List.map_map, List.map_cons]
    congr 1

theorem product_idxs_block_eq_map (xs : List Nat) (a : List Nat) :
    product_idxs_block xs a = xs.map (fun x => a ++ [x]) := by
  unfold product_idxs_block replicate
  simp only [List.length_replicate]
  have h1 : ∀ i ∈ List.range xs.length,
      (List.replicate xs.length a).getD i [] ++ [xs.getD i 0] = a ++ [xs.getD i 0] := by
    intro i hi
    rw [List.mem_range] at hi
    rw [List.getD_eq_getElem?_getD, List.getElem?_replicate, if_pos hi]
    rfl
  rw [List.map_congr_left h1]
  exact map_range_getD (fun x => a ++ [x]) 0 xs

theorem product_idxs_step_eq_flatMap (xs : List Nat) (acc : List (List Nat)) :
    product_idxs_step xs acc = acc.flatMap (fun a => xs.map (fun x => a ++ [x])) := by
  unfold product_idxs_step
  simp only [append]
  rw [foldl_append_flatMap (fun a => product_idxs_block xs a), List.nil_append]
  congr 1
  funext a
  exact product_idxs_block_eq_map xs a

/-! ### The unrolled helper and the specification enumeration -/

theorem product_idxs_steps_eq_spec_lex (xs : List Nat) :
    ∀ (k : Nat) (acc : List (List Nat)),
      product_idxs_steps xs acc k =
        acc.flatMap (fun a => (spec_lex_tuples xs k).map (fun t => a ++ t)) := by
  intro k
  induction k with
  | zero =>
    intro acc
    show acc = _
    simp [spec_lex_tuples]
  | succ k ih =>
    intro acc
    rw [product_idxs_steps_succ, ih, product_idxs_step_eq_flatMap, List.flatMap_assoc]
    show _ = acc.flatMap fun a => (spec_lex_tuples xs (k + 1)).map fun t => a ++ t
    simp only [spec_lex_tuples, List.flatMap_map, List.map_flatMap, List.map_map]
    congr 1
    funext a
    congr 1
    funext x
    congr 1
    funext t
    show (a ++ [x]) ++ t = a ++ x :: t
    rw [List.append_assoc]
    rfl

theorem product_idxs_eq_spec_lex (xs : List Nat) (p : Nat) (h1 : 1 ≤ p) (h2 : p < 2 ^ 64) :
    product_idxs p xs = spec_lex_tuples xs p := by
  obtain ⟨k, rfl⟩ : ∃ k, p = k + 1 := ⟨p - 1, by omega⟩
  unfold product_idxs transform
  rw [product_idxs_helper_eq_steps xs k, product_idxs_steps_eq_spec_lex, List.flatMap_map]
  show (xs.flatMap fun x => (spec_lex_tuples xs k).map fun t => [x] ++ t) =
    xs.flatMap fun x => (spec_lex_tuples xs k).map fun t => x :: t
  rfl

theorem product_idxs_zero_eq_spec_lex (xs : List Nat) :
    product_idxs 0 xs = spec_lex_tuples xs (2 ^ 64) := by
  unfold product_idxs transform
  rw [product_idxs_helper_zero, product_idxs_steps_eq_spec_lex, List.flatMap_map]
  have h : (2 : Nat) ^ 64 = (2 ^ 64 - 1) + 1 := by norm_num
  rw [h]
  show (xs.flatMap fun x => (spec_lex_tuples xs (2 ^ 64 - 1)).map fun t => [x] ++ t) =
    xs.flatMap fun x => (spec_lex_tuples xs (2 ^ 64 - 1)).map fun t => x :: t
  rfl

/-- The enumeration produced by product_idxs at every power: for p ≥ 1 it is
the lexicographic enumeration at p, and at p = 0 the wrapped-around
recursion yields the enumeration at 2 ^ 64. -/
theorem product_idxs_spec_lex_form (xs : List Nat) (p : Nat) :
    product_idxs p xs = spec_lex_tuples xs (if p = 0 then 2 ^ 64 else p) := by
  by_cases hp : p = 0
  · subst hp
    rw [if_pos rfl]
    exact product_idxs_zero_eq_spec_lex xs
  · rw [if_neg hp]
    obtain ⟨k, rfl⟩ : ∃ k, p = k + 1 := ⟨p - 1, by omega⟩
    unfold product_idxs transform
    rw [product_idxs_helper_eq_steps xs k, product_idxs_steps_eq_spec_lex, List.flatMap_map]
    show (xs.flatMap fun x => (spec_lex_tuples xs k).map fun t => [x] ++ t) =
      xs.flatMap fun x => (spec_lex_tuples xs k).map fun t => x :: t
    rfl

theorem spec_lex_tuples_map (g : α → β) (xs : List α) :
    ∀ p, (spec_lex_tuples xs p).map (List.map g) = spec_lex_tuples (xs.map g) p := by
  intro p
  induction p with
  | zero => rfl
  | succ p ih =>
    show (xs.flatMap fun x => (spec_lex_tuples xs p).map fun t => x :: t).map (List.map g) =
      (xs.map g).flatMap fun y => (spec_lex_tuples (xs.map g) p).map fun t => y :: t
    rw [List.map_flatMap, List.flatMap_map]
    congr 1
    funext x
    rw [List.map_map, ← ih, List.map_map]
    congr 1

theorem product_eq_spec_lex [Inhabited α] (xs : List α) (p : Nat)
    (h1 : 1 ≤ p) (h2 : p < 2 ^ 64) : product p xs = spec_lex_tuples xs p := by
  unfold product product_idxss transform elems_at_idxs all_idxs
  rw [product_idxs_eq_spec_lex _ _ h1 h2]
  have hm := spec_lex_tuples_map (fun i => xs.getD i default) (List.range xs.length) p
  have hr : (List.range xs.length).map (fun i => xs.getD i default) = xs := by
    have := map_range_getD (fun a : α => a) default xs
    simpa using this
  rw [hr] at hm
  exact hm

example : product 2 ['A', 'B', 'C', 'D'] =
    [['A', 'A'], ['A', 'B'], ['A', 'C'], ['A', 'D'],
     ['B', 'A'], ['B', 'B'], ['B', 'C'], ['B', 'D'],
     ['C', 'A'], ['C', 'B'], ['C', 'C'], ['C', 'D'],
     ['D', 'A'], ['D', 'B'], ['D', 'C'], ['D', 'D']] := by
  rw [product_eq_spec_lex _ _ (by norm_num) (by norm_num)]
  decide

/-! ### Lengths -/

theorem length_flatMap_const (l : List α) (f : α → List β) (c : Nat)
    (h : ∀ a ∈ l, (f a).length = c) : (l.flatMap f).length = l.length * c := by
  induction l with
  | nil => simp
  | cons a l ih =>
    rw [List.flatMap_cons, List.length_append, h a (by simp),
      ih (fun b hb => h b (by simp [hb])), List.length_cons]
    ring

theorem spec_lex_tuples_length (xs : List α) :
    ∀ p, (spec_lex_tuples xs p).length = xs.length ^ p := by
  intro p
  induction p with
  | zero => rfl
  | succ p ih =>
    show (xs.flatMap fun x => (spec_lex_tuples xs p).map fun t => x :: t).length = _
    rw [length_flatMap_const _ _ (xs.length ^ p)
      (fun x _ => by rw [List.length_map, ih]), pow_succ]
    ring

/-! ### Filtering the enumeration -/

theorem filter_flatMap (l : List α) (f : α → List β) (p : β → Bool) :
    (l.flatMap f).filter p = l.flatMap (fun a => (f a).filter p) := by
  induction l with
  | nil => rfl
  | cons a l ih => simp only [List.flatMap_cons, List.filter_append, ih]

theorem flatMap_if_filter (l : List α) (f : α → List β) (q : α → Bool) :
    l.flatMap (fun a => if q a then f a else []) = (l.filter q).flatMap f := by
  induction l with
  | nil => rfl
  | cons a l ih =>
    rw [List.flatMap_cons, List.filter_cons]
    by_cases hq : q a = true
    · rw [if_pos hq, if_pos hq, List.flatMap_cons, ih]
    · rw [if_neg hq, if_neg hq, List.nil_append, ih]

/-- Filtering the tuples whose entries all satisfy q out of the enumeration
is the same as enumerating over the filtered domain. -/
theorem spec_lex_filter_all (q : α → Bool) (xs : List α) :
    ∀ p, (spec_lex_tuples xs p).filter (fun t => t.all q) = spec_lex_tuples (xs.filter q) p := by
  intro p
  induction p with
  | zero => rfl
  | succ p ih =>
    show ((xs.flatMap fun x => (spec_lex_tuples xs p).map fun t => x :: t).filter
        fun t => t.all q) = (xs.filter q).flatMap fun x =>
          (spec_lex_tuples (xs.filter q) p).map fun t => x :: t
    rw [filter_flatMap, ← flatMap_if_filter]
    congr 1
    funext x
    rw [List.filter_map]
    have hcongr : ∀ t ∈ spec_lex_tuples xs p,
        ((fun t => t.all q) ∘ fun t => x :: t) t = (fun t => q x && t.all q) t := by
      intro t _
      exact List.all_cons
    rw [List.filter_congr hcongr]
    by_cases hq : q x = true
    · rw [if_pos hq]
      have h2 : ∀ t ∈ spec_lex_tuples xs p,
          (fun t => q x && t.all q) t = (fun t => t.all q) t := by
        intro t _
        simp [hq]
      rw [List.filter_congr h2, ih]
    · rw [if_neg hq]
      have hqf : q x = false := Bool.eq_false_iff.mpr hq
      have h2 : ∀ t ∈ spec_lex_tuples xs p,
          (fun t => q x && t.all q) t = (fun _ => false) t := by
        intro t _
        simp [hqf]
      rw [List.filter_congr h2, List.filter_false, List.map_nil]

/-- Length form of filtering a flatMap when each block is only known up to
its filtered length. -/
theorem length_filter_flatMap_congr (l : List α) (f g : α → List β) (P : β → Bool)
    (h : ∀ a ∈ l, ((f a).filter P).length = ((g a).filter P).length) :
    ((l.flatMap f).filter P).length = ((l.flatMap g).filter P).length := by
  induction l with
  | nil => rfl
  | cons a l ih =>
    rw [List.flatMap_cons, List.flatMap_cons, List.filter_append, List.filter_append,
      List.length_append, List.length_append, h a (by simp),
      ih (fun b hb => h b (by simp [hb]))]

/-- Counting the survivors of a head-extension block: if prepending y turns
the predicate P into the conjunction of P with an elementwise condition on
the tail, the filtered block has as many entries as the filtered enumeration
over the restricted domain. -/
theorem lex_block_count (xs : List Nat) (p : Nat) (P : List Nat → Bool) (y : Nat)
    (qy : Nat → Bool) (hP : ∀ t, P (y :: t) = (t.all qy && P t)) :
    (((spec_lex_tuples xs p).map (fun t => y :: t)).filter P).length =
      ((spec_lex_tuples (xs.filter qy) p).filter P).length := by
  rw [List.filter_map, List.length_map]
  have hcongr : ∀ t ∈ spec_lex_tuples xs p,
      (P ∘ fun t => y :: t) t = (fun t => P t && t.all qy) t := by
    intro t _
    show P (y :: t) = _
    rw [hP t, Bool.and_comm]
  rw [List.filter_congr hcongr, ← List.filter_filter, spec_lex_filter_all]

/-! ### The three predicates, unfolded over a cons -/

theorem all_unique_cons (y : Nat) (t : List Nat) :
    all_unique (y :: t) = (t.all (fun e => !(e == y)) && all_unique t) := rfl

theorem all_unique_iff_nodup (t : List Nat) : all_unique t = true ↔ t.Nodup := by
  induction t with
  | nil => simp [all_unique]
  | cons x r ih =>
    rw [all_unique_cons, Bool.and_eq_true, ih, List.all_eq_true, List.nodup_cons]
    constructor
    · rintro ⟨hall, hnd⟩
      exact ⟨fun hx => absurd (hall x hx) (by simp), hnd⟩
    · rintro ⟨hx, hnd⟩
      refine ⟨fun e he => ?_, hnd⟩
      have hne : e ≠ x := fun heq => hx (heq ▸ he)
      simp [hne]

theorem is_strictly_sorted_iff_chain (t : List Nat) :
    is_strictly_sorted t = true ↔ List.Chain' (· < ·) t := by
  induction t with
  | nil => simp [is_strictly_sorted]
  | cons x r ih =>
    cases r with
    | nil => simp [is_strictly_sorted]
    | cons y s =>
      rw [show is_strictly_sorted (x :: y :: s) =
          (decide (x < y) && is_strictly_sorted (y :: s)) from rfl,
        Bool.and_eq_true, decide_eq_true_eq, ih, List.chain'_cons]

theorem is_sorted_iff_chain (t : List Nat) :
    is_sorted t = true ↔ List.Chain' (· ≤ ·) t := by
  induction t with
  | nil => simp [is_sorted]
  | cons x r ih =>
    cases r with
    | nil => simp [is_sorted]
    | cons y s =>
      rw [show is_sorted (x :: y :: s) = (decide (x ≤ y) && is_sorted (y :: s)) from rfl,
        Bool.and_eq_true, decide_eq_true_eq, ih, List.chain'_cons]

theorem is_strictly_sorted_iff_pairwise (t : List Nat) :
    is_strictly_sorted t = true ↔ List.Pairwise (· < ·) t :=
  (is_strictly_sorted_iff_chain t).trans List.chain'_iff_pairwise

theorem is_sorted_iff_pairwise (t : List Nat) :
    is_sorted t = true ↔ List.Pairwise (· ≤ ·) t :=
  (is_sorted_iff_chain t).trans List.chain'_iff_pairwise

theorem is_strictly_sorted_cons (y : Nat) (t : List Nat) :
    is_strictly_sorted (y :: t) = (t.all (fun e => decide (y < e)) && is_strictly_sorted t) := by
  rw [Bool.eq_iff_iff, Bool.and_eq_true, is_strictly_sorted_iff_pairwise,
    is_strictly_sorted_iff_pairwise, List.pairwise_cons, List.all_eq_true]
  simp only [decide_eq_true_eq]

theorem is_sorted_cons (y : Nat) (t : List Nat) :
    is_sorted (y :: t) = (t.all (fun e => decide (y ≤ e)) && is_sorted t) := by
  rw [Bool.eq_iff_iff, Bool.and_eq_true, is_sorted_iff_pairwise,
    is_sorted_iff_pairwise, List.pairwise_cons, List.all_eq_true]
  simp only [decide_eq_true_eq]

/-! ### Counting the filtered enumerations -/

theorem length_filter_ne (x : Nat) :
    ∀ xs : List Nat, xs.Nodup → x ∈ xs →
      (xs.filter (fun e => !(e == x))).length = xs.length - 1 := by
  intro xs
  induction xs with
  | nil => intro _ h; cases h
  | cons y ys ih =>
    intro hnd hmem
    obtain ⟨hy_not, hys_nd⟩ := List.nodup_cons.mp hnd
    rw [List.filter_cons]
    by_cases hyx : y = x
    · subst hyx
      rw [if_neg (by simp)]
      rw [List.filter_eq_self.mpr (fun a ha => by
        have : a ≠ y := fun h => hy_not (h ▸ ha)
        simp [this])]
      simp
    · rw [if_pos (by simp [hyx]), List.length_cons]
      have hx : x ∈ ys := by
        rcases List.mem_cons.mp hmem with h | h
        · exact absurd h.symm hyx
        · exact h
      rw [ih hys_nd hx, List.length_cons]
      have h1 : 1 ≤ ys.length := List.length_pos.mpr (List.ne_nil_of_mem hx)
      omega

theorem spec_lex_count_all_unique :
    ∀ (p : Nat) (xs : List Nat), xs.Nodup →
      ((spec_lex_tuples xs p).filter all_unique).length = xs.length.descFactorial p := by
  intro p
  induction p with
  | zero =>
    intro xs _
    simp [spec_lex_tuples, all_unique]
  | succ p ih =>
    intro xs hnd
    show ((xs.flatMap fun x => (spec_lex_tuples xs p).map fun t => x :: t).filter
      all_unique).length = _
    rw [filter_flatMap]
    have hblock : ∀ x ∈ xs,
        (((spec_lex_tuples xs p).map fun t => x :: t).filter all_unique).length =
          (xs.length - 1).descFactorial p := by
      intro x hx
      rw [lex_block_count xs p all_unique x (fun e => !(e == x))
        (fun t => all_unique_cons x t)]
      rw [ih (xs.filter (fun e => !(e == x))) (hnd.filter _), length_filter_ne x xs hnd hx]
    rw [length_flatMap_const _ _ _ hblock]
    cases xs with
    | nil => simp [Nat.zero_descFactorial_succ]
    | cons z zs => rw [List.length_cons, Nat.succ_sub_one, Nat.succ_descFactorial_succ]

theorem filter_gt_head (x : Nat) (xs : List Nat) (hx : ∀ e ∈ xs, x < e) :
    (x :: xs).filter (fun e => decide (x < e)) = xs := by
  rw [List.filter_cons, if_neg (by simp)]
  exact List.filter_eq_self.mpr (fun e he => by simp [hx e he])

theorem filter_ge_head (x : Nat) (xs : List Nat) (hx : ∀ e ∈ xs, x < e) :
    (x :: xs).filter (fun e => decide (x ≤ e)) = x :: xs := by
  apply List.filter_eq_self.mpr
  intro a ha
  rcases List.mem_cons.mp ha with h | h
  · simp [h]
  · simp [Nat.le_of_lt (hx a h)]

theorem filter_lt_tail (x y : Nat) (xs : List Nat) (hxy : x < y) :
    (x :: xs).filter (fun e => decide (y < e)) = xs.filter (fun e => decide (y < e)) := by
  rw [List.filter_cons, if_neg (by simp; omega)]

theorem filter_le_tail (x y : Nat) (xs : List Nat) (hxy : x < y) :
    (x :: xs).filter (fun e => decide (y ≤ e)) = xs.filter (fun e => decide (y ≤ e)) := by
  rw [List.filter_cons, if_neg (by simp; omega)]

theorem spec_lex_count_strictly_sorted :
    ∀ (xs : List Nat), List.Pairwise (· < ·) xs → ∀ p,
      ((spec_lex_tuples xs p).filter is_strictly_sorted).length = xs.length.choose p := by
  intro xs
  induction xs with
  | nil =>
    intro _ p
    cases p with
    | zero => simp [spec_lex_tuples, is_strictly_sorted]
    | succ p => simp [spec_lex_tuples, Nat.choose_eq_zero_of_lt (Nat.succ_pos p)]
  | cons x xs ih =>
    intro hpw p
    obtain ⟨hx_lt, hxs_pw⟩ := List.pairwise_cons.mp hpw
    cases p with
    | zero => simp [spec_lex_tuples, is_strictly_sorted]
    | succ p =>
      show (((x :: xs).flatMap fun y =>
        (spec_lex_tuples (x :: xs) p).map fun t => y :: t).filter
          is_strictly_sorted).length = _
      rw [List.flatMap_cons, List.filter_append, List.length_append]
      have hhead : (((spec_lex_tuples (x :: xs) p).map fun t => x :: t).filter
          is_strictly_sorted).length = xs.length.choose p := by
        rw [lex_block_count (x :: xs) p is_strictly_sorted x (fun e => decide (x < e))
          (fun t => is_strictly_sorted_cons x t), filter_gt_head x xs hx_lt]
        exact ih hxs_pw p
      have htail : ((xs.flatMap fun y =>
          (spec_lex_tuples (x :: xs) p).map fun t => y :: t).filter
            is_strictly_sorted).length = xs.length.choose (p + 1) := by
        have hcong : ∀ y ∈ xs,
            (((spec_lex_tuples (x :: xs) p).map fun t => y :: t).filter
              is_strictly_sorted).length =
            (((spec_lex_tuples xs p).map fun t => y :: t).filter
              is_strictly_sorted).length := by
          intro y hy
          rw [lex_block_count (x :: xs) p is_strictly_sorted y (fun e => decide (y < e))
            (fun t => is_strictly_sorted_cons y t),
            lex_block_count xs p is_strictly_sorted y (fun e => decide (y < e))
            (fun t => is_strictly_sorted_cons y t),
            filter_lt_tail x y xs (hx_lt y hy)]
        rw [length_filter_flatMap_congr xs _ _ is_strictly_sorted hcong]
        exact ih hxs_pw (p + 1)
      rw [hhead, htail, List.length_cons, Nat.choose_succ_succ]

theorem spec_lex_count_sorted :
    ∀ (xs : List Nat), List.Pairwise (· < ·) xs → ∀ p,
      ((spec_lex_tuples xs p).filter is_sorted).length = (xs.length + p - 1).choose p := by
  intro xs
  induction xs with
  | nil =>
    intro _ p
    cases p with
    | zero => simp [spec_lex_tuples, is_sorted]
    | succ p => simp [spec_lex_tuples, Nat.choose_eq_zero_of_lt (Nat.lt_succ_self p)]
  | cons x xs ih =>
    intro hpw
    obtain ⟨hx_lt, hxs_pw⟩ := List.pairwise_cons.mp hpw
    intro p
    induction p with
    | zero => simp [spec_lex_tuples, is_sorted]
    | succ p ihp =>
      show (((x :: xs).flatMap fun y =>
        (spec_lex_tuples (x :: xs) p).map fun t => y :: t).filter is_sorted).length = _
      rw [List.flatMap_cons, List.filter_append, List.length_append]
      have hhead : (((spec_lex_tuples (x :: xs) p).map fun t => x :: t).filter
          is_sorted).length = ((x :: xs).length + p - 1).choose p := by
        rw [lex_block_count (x :: xs) p is_sorted x (fun e => decide (x ≤ e))
          (fun t => is_sorted_cons x t), filter_ge_head x xs hx_lt]
        exact ihp
      have htail : ((xs.flatMap fun y =>
          (spec_lex_tuples (x :: xs) p).map fun t => y :: t).filter is_sorted).length =
            (xs.length + (p + 1) - 1).choose (p + 1) := by
        have hcong : ∀ y ∈ xs,
            (((spec_lex_tuples (x :: xs) p).map fun t => y :: t).filter is_sorted).length =
            (((spec_lex_tuples xs p).map fun t => y :: t).filter is_sorted).length := by
          intro y hy
          rw [lex_block_count (x :: xs) p is_sorted y (fun e => decide (y ≤ e))
            (fun t => is_sorted_cons y t),
            lex_block_count xs p is_sorted y (fun e => decide (y ≤ e))
            (fun t => is_sorted_cons y t),
            filter_le_tail x y xs (hx_lt y hy)]
        rw [length_filter_flatMap_congr xs _ _ is_sorted hcong]
        exact ih hxs_pw (p + 1)
      rw [hhead, htail, List.length_cons]
      have e1 : xs.length + 1 + p - 1 = xs.length + p := by omega
      have e2 : xs.length + (p + 1) - 1 = xs.length + p := by omega
      have e3 : xs.length + 1 + (p + 1) - 1 = xs.length + p + 1 := by omega
      rw [e1, e2, e3, Nat.choose_succ_succ]

theorem spec_lex_tuples_nodup (xs : List α) (h : xs.Nodup) :
    ∀ p, (spec_lex_tuples xs p).Nodup := by
  intro p
  induction p with
  | zero => simp [spec_lex_tuples]
  | succ p ih =>
    show (xs.flatMap fun x => (spec_lex_tuples xs p).map fun t => x :: t).Nodup
    rw [List.nodup_flatMap]
    constructor
    · intro x _
      exact ih.map (fun t t' ht => (List.cons_eq_cons.mp ht).2)
    · apply List.Pairwise.imp ?_ h
      intro a b hab
      intro l hla hlb
      obtain ⟨t, _, hta⟩ := List.mem_map.mp hla
      obtain ⟨t', _, htb⟩ := List.mem_map.mp hlb
      rw [← hta] at htb
      exact hab (List.cons_eq_cons.mp htb).1.symm

theorem spec_lex_tuples_empty_domain (k : Nat) (hk : k ≠ 0) :
    spec_lex_tuples ([] : List α) k = [] := by
  cases k with
  | zero => exact absurd rfl hk
  | succ k => rfl

/-! ### Claims -/

/-- C1 counterexample: the claim quantifies over every power p greater than
or equal to 0, but at p = 0 the helper recursion wraps around and the code
does not return n ^ 0 = 1 tuples: on a two-element input it produces
2 ^ (2 ^ 64) tuples. -/
theorem product_power_zero_counterexample :
    ¬ ((product 0 ([10, 20] : List Nat)).length = ([10, 20] : List Nat).length ^ 0) := by
  have hl : (product 0 ([10, 20] : List Nat)).length = 2 ^ (2 : Nat) ^ 64 := by
    unfold product product_idxss transform
    rw [List.length_map, product_idxs_zero_eq_spec_lex, spec_lex_tuples_length]
    congr 1
  intro h
  rw [hl] at h
  have h2 : 1 < 2 ^ (2 : Nat) ^ 64 := Nat.one_lt_pow (by norm_num) (by norm_num)
  rw [pow_zero] at h
  exact ne_of_gt h2 h

/-- C1 (amended): for every input sequence of size n and every representable
power p with 1 ≤ p, product(p, xs) returns a collection of exactly n ^ p
element tuples.  (The claim as frozen also covers p = 0, which the code does
not satisfy; see the counterexample.) -/
theorem product_length_pow [Inhabited α] (xs : List α) (p : Nat)
    (h1 : 1 ≤ p) (h2 : p < 2 ^ 64) : (product p xs).length = xs.length ^ p := by
  rw [product_eq_spec_lex xs p h1 h2, spec_lex_tuples_length]

/-- Witness for C1 at xs = [5, 7], p = 2. -/
theorem product_length_pow_witness :
    (product 2 ([5, 7] : List Nat)).length = ([5, 7] : List Nat).length ^ 2 :=
  product_length_pow [5, 7] 2 (by norm_num) (by norm_num)

/-- C2: for every input sequence and every representable power p ≥ 1,
product enumerates the Cartesian power in lexicographic order by index
value, most-significant (leftmost) position varying slowest — stated as
equality with the specification-side enumeration spec_lex_tuples — and in
particular product(2, "ABCD") is exactly the sixteen two-letter strings in
the stated order. -/
theorem product_lex_order :
    (∀ (α : Type) [Inhabited α] (xs : List α) (p : Nat), 1 ≤ p → p < 2 ^ 64 →
      product p xs = spec_lex_tuples xs p) ∧
    product 2 ['A', 'B', 'C', 'D'] =
      [['A', 'A'], ['A', 'B'], ['A', 'C'], ['A', 'D'],
       ['B', 'A'], ['B', 'B'], ['B', 'C'], ['B', 'D'],
       ['C', 'A'], ['C', 'B'], ['C', 'C'], ['C', 'D'],
       ['D', 'A'], ['D', 'B'], ['D', 'C'], ['D', 'D']] := by
  constructor
  · intro α _ xs p h1 h2
    exact product_eq_spec_lex xs p h1 h2
  · rw [product_eq_spec_lex _ _ (by norm_num) (by norm_num)]
    decide

/-- Witness for C2 at xs = [3, 4], p = 2. -/
theorem product_lex_order_witness :
    product 2 ([3, 4] : List Nat) = spec_lex_tuples [3, 4] 2 :=
  product_lex_order.1 Nat [3, 4] 2 (by norm_num) (by norm_num)

/-- C3 counterexample: the claim covers every power, but at p = 0 (where
p ≤ n holds for n = 0 and the claimed size is 0! / 0! = 1) the code returns
an empty collection. -/
theorem permutations_power_zero_counterexample :
    ¬ ((permutations 0 ([] : List Nat)).length =
      Nat.factorial ([] : List Nat).length /
        Nat.factorial (([] : List Nat).length - 0)) := by
  have hl : permutations 0 ([] : List Nat) = [] := by
    unfold permutations transform permutations_idxss keep_if all_idxs
    rw [product_idxs_zero_eq_spec_lex]
    have h2 : List.range (List.length ([] : List Nat)) = ([] : List Nat) := rfl
    rw [h2, spec_lex_tuples_empty_domain _ (by norm_num)]
    rfl
  intro h
  rw [hl] at h
  simp [Nat.factorial] at h

/-- C3 (amended): for every input sequence of size n and every representable
power p with 1 ≤ p: if p ≤ n then permutations(p, xs) returns exactly
n! / (n-p)! element tuples, and if p > n it returns an empty result.  (The
claim as frozen also covers p = 0, which the code does not satisfy; see the
counterexample.) -/
theorem permutations_length [Inhabited α] (xs : List α) (p : Nat)
    (h1 : 1 ≤ p) (h2 : p < 2 ^ 64) :
    (p ≤ xs.length → (permutations p xs).length =
      Nat.factorial xs.length / Nat.factorial (xs.length - p)) ∧
    (xs.length < p → permutations p xs = []) := by
  have hlen : (permutations p xs).length = xs.length.descFactorial p := by
    unfold permutations transform permutations_idxss keep_if all_idxs
    rw [List.length_map, product_idxs_eq_spec_lex _ _ h1 h2,
      spec_lex_count_all_unique p _ (List.nodup_range _), List.length_range]
  constructor
  · intro hpn
    rw [hlen, Nat.descFactorial_eq_div hpn]
  · intro hnp
    have h0 : (permutations p xs).length = 0 := by
      rw [hlen]
      exact Nat.descFactorial_eq_zero_iff_lt.mpr hnp
    exact List.length_eq_zero.mp h0

/-- Witness for C3 at xs = "ab", p = 2. -/
theorem permutations_length_witness :
    (permutations 2 (['a', 'b'] : List Char)).length =
      Nat.factorial (['a', 'b'] : List Char).length /
        Nat.factorial ((['a', 'b'] : List Char).length - 2) :=
  (permutations_length ['a', 'b'] 2 (by norm_num) (by norm_num)).1 (by norm_num)

/-- C4 counterexample: on an input with equal elements, permutations can
produce a tuple whose elements are not pairwise distinct (only the source
indices are distinct): permutations(2, "AA") contains the tuple "AA". -/
theorem permutations_duplicate_elements_counterexample :
    ¬ ∀ t ∈ permutations 2 (['A', 'A'] : List Char), t.Nodup := by
  intro h
  have hperm : permutations 2 (['A', 'A'] : List Char) = [['A', 'A'], ['A', 'A']] := by
    unfold permutations transform permutations_idxss keep_if
    rw [product_idxs_eq_spec_lex _ _ (by norm_num) (by norm_num)]
    decide
  have hmem : (['A', 'A'] : List Char) ∈ permutations 2 (['A', 'A'] : List Char) := by
    rw [hperm]
    decide
  exact (by decide : ¬ (['A', 'A'] : List Char).Nodup) (h _ hmem)

/-- C4 (amended): for every input sequence and every power, every index
tuple kept by permutations has pairwise-distinct entries, every index tuple
kept by combinations has strictly-increasing entries, and every index tuple
kept by combinations_with_replacement has non-decreasing entries — these
are the source-index tuples from which the output element tuples are
resolved.  (The frozen claim asserts pairwise-distinct elements for
permutations, which fails when the input itself contains equal elements.) -/
theorem filtered_tuples_invariants (α : Type) (xs : List α) (p : Nat) :
    (∀ t ∈ permutations_idxss p xs, t.Nodup) ∧
    (∀ t ∈ combinations_idxss p xs, List.Pairwise (· < ·) t) ∧
    (∀ t ∈ combinations_with_replacement_idxss p xs, List.Pairwise (· ≤ ·) t) := by
  refine ⟨?_, ?_, ?_⟩
  · intro t ht
    unfold permutations_idxss keep_if at ht
    exact (all_unique_iff_nodup t).mp (List.of_mem_filter ht)
  · intro t ht
    unfold combinations_idxss keep_if at ht
    exact (is_strictly_sorted_iff_pairwise t).mp (List.of_mem_filter ht)
  · intro t ht
    unfold combinations_with_replacement_idxss keep_if at ht
    exact (is_sorted_iff_pairwise t).mp (List.of_mem_filter ht)

/-- Witness for C4: the index tuple [0, 1] of permutations(2, [4, 5]) has
pairwise-distinct entries. -/
theorem filtered_tuples_invariants_witness : ([0, 1] : List Nat).Nodup :=
  (filtered_tuples_invariants Nat [4, 5] 2).1 [0, 1] (by
    unfold permutations_idxss keep_if
    rw [product_idxs_eq_spec_lex _ _ (by norm_num) (by norm_num)]
    decide)

/-- C5 counterexample: on an input with equal elements, combinations can
produce a tuple with repeated elements: combinations(2, "AA") is ["AA"]. -/
theorem combinations_duplicate_elements_counterexample :
    ¬ ∀ t ∈ combinations 2 (['A', 'A'] : List Char), t.Nodup := by
  intro h
  have hcomb : combinations 2 (['A', 'A'] : List Char) = [['A', 'A']] := by
    unfold combinations transform combinations_idxss keep_if
    rw [product_idxs_eq_spec_lex _ _ (by norm_num) (by norm_num)]
    decide
  have hmem : (['A', 'A'] : List Char) ∈ combinations 2 (['A', 'A'] : List Char) := by
    rw [hcomb]
    decide
  exact (by decide : ¬ (['A', 'A'] : List Char).Nodup) (h _ hmem)

/-- C5 (amended): for every input sequence and every power, the index
signatures kept by combinations are pairwise distinct across the output and
each is canonically ascending, so no index set repeats and no index repeats
within a tuple.  (The frozen claim states the uniqueness in terms of
element sets and elements, which fails when the input itself contains equal
elements.) -/
theorem combinations_canonical_signatures (α : Type) (xs : List α) (p : Nat) :
    (combinations_idxss p xs).Nodup ∧
    ∀ t ∈ combinations_idxss p xs, List.Pairwise (· < ·) t := by
  constructor
  · unfold combinations_idxss keep_if
    rw [product_idxs_spec_lex_form]
    exact (spec_lex_tuples_nodup _ (List.nodup_range _) _).filter _
  · intro t ht
    unfold combinations_idxss keep_if at ht
    exact (is_strictly_sorted_iff_pairwise t).mp (List.of_mem_filter ht)

/-- Witness for C5: the index signature [0, 1] kept by combinations(2, [6, 7])
is strictly ascending. -/
theorem combinations_canonical_signatures_witness :
    List.Pairwise (· < ·) ([0, 1] : List Nat) :=
  (combinations_canonical_signatures Nat [6, 7] 2).2 [0, 1] (by
    unfold combinations_idxss keep_if
    rw [product_idxs_eq_spec_lex _ _ (by norm_num) (by norm_num)]
    decide)

/-- C6 counterexample: the claim covers every power, but at p = 0 the
claimed size is C(n, 0) = 1 while the code returns an empty collection (the
wrapped-around recursion produces tuples of length 2 ^ 64, none of which is
strictly ascending over a one-element domain). -/
theorem combinations_power_zero_counterexample :
    ¬ ((combinations 0 ([7] : List Nat)).length = Nat.choose ([7] : List Nat).length 0) := by
  have hl : (combinations 0 ([7] : List Nat)).length = 0 := by
    unfold combinations transform combinations_idxss keep_if all_idxs
    rw [List.length_map, product_idxs_zero_eq_spec_lex,
      spec_lex_count_strictly_sorted _ (List.pairwise_lt_range _) _, List.length_range]
    have hlen : ([7] : List Nat).length = 1 := rfl
    rw [hlen]
    exact Nat.choose_eq_zero_of_lt (by norm_num)
  intro h
  rw [hl] at h
  simp at h

/-- C6 (amended): for every input sequence of size n and every representable
power p with 1 ≤ p, combinations(p, xs) returns exactly C(n, p) element
tuples.  (The claim as frozen also covers p = 0, which the code does not
satisfy; see the counterexample.) -/
theorem combinations_length [Inhabited α] (xs : List α) (p : Nat)
    (h1 : 1 ≤ p) (h2 : p < 2 ^ 64) :
    (combinations p xs).length = Nat.choose xs.length p := by
  unfold combinations transform combinations_idxss keep_if all_idxs
  rw [List.length_map, product_idxs_eq_spec_lex _ _ h1 h2,
    spec_lex_count_strictly_sorted _ (List.pairwise_lt_range _) p, List.length_range]

/-- Witness for C6 at xs = "abcd", p = 2. -/
theorem combinations_length_witness :
    (combinations 2 (['a', 'b', 'c', 'd'] : List Char)).length =
      Nat.choose (['a', 'b', 'c', 'd'] : List Char).length 2 :=
  combinations_length ['a', 'b', 'c', 'd'] 2 (by norm_num) (by norm_num)

/-- C7 counterexample: the claim covers every power, but at p = 0 the
claimed size is C(n - 1, 0) = 1 while the code returns 2 ^ 64 + 1 tuples on
a two-element input (every non-decreasing tuple of length 2 ^ 64 over two
indices survives the filter). -/
theorem combinations_with_replacement_power_zero_counterexample :
    ¬ ((combinations_with_replacement 0 ([7, 8] : List Nat)).length =
      Nat.choose (([7, 8] : List Nat).length + 0 - 1) 0) := by
  have hl : (combinations_with_replacement 0 ([7, 8] : List Nat)).length = 2 ^ 64 + 1 := by
    unfold combinations_with_replacement transform combinations_with_replacement_idxss
      keep_if all_idxs
    rw [List.length_map, product_idxs_zero_eq_spec_lex,
      spec_lex_count_sorted _ (List.pairwise_lt_range _) _, List.length_range]
    have hlen : ([7, 8] : List Nat).length = 2 := rfl
    rw [hlen]
    have e : (2 : Nat) + 2 ^ 64 - 1 = 2 ^ 64 + 1 := by norm_num
    rw [e]
    exact Nat.choose_succ_self_right _
  intro h
  rw [hl] at h
  norm_num at h

/-- C7 (amended): for every input sequence of size n and every representable
power p with 1 ≤ p, combinations_with_replacement(p, xs) returns exactly
C(n + p - 1, p) element tuples.  (The claim as frozen also covers p = 0,
which the code does not satisfy; see the counterexample.) -/
theorem combinations_with_replacement_length [Inhabited α] (xs : List α) (p : Nat)
    (h1 : 1 ≤ p) (h2 : p < 2 ^ 64) :
    (combinations_with_replacement p xs).length = Nat.choose (xs.length + p - 1) p := by
  unfold combinations_with_replacement transform combinations_with_replacement_idxss
    keep_if all_idxs
  rw [List.length_map, product_idxs_eq_spec_lex _ _ h1 h2,
    spec_lex_count_sorted _ (List.pairwise_lt_range _) p, List.length_range]

/-- Witness for C7 at xs = [1, 2, 3], p = 2. -/
theorem combinations_with_replacement_length_witness :
    (combinations_with_replacement 2 ([1, 2, 3] : List Nat)).length =
      Nat.choose (([1, 2, 3] : List Nat).length + 2 - 1) 2 :=
  combinations_with_replacement_length [1, 2, 3] 2 (by norm_num) (by norm_num)

/-- C8: infixes(len, xs) fails its precondition exactly when len = 0 (the
failed assertion is modelled as none); for every len ≥ 1 it returns
max(0, size - len + 1) windows (written size + 1 - len in truncated natural
subtraction), and window i is the contiguous sub-sequence xs[i .. i+len). -/
theorem infixes_spec (α : Type) :
    (∀ xs : List α, infixes 0 xs = none) ∧
    (∀ (len : Nat) (xs : List α), 1 ≤ len →
      ∃ ws, infixes len xs = some ws ∧
        ws.length = xs.length + 1 - len ∧
        ∀ i, i < ws.length → ws.getD i [] = (xs.drop i).take len) := by
  constructor
  · intro xs
    rfl
  · intro len xs hlen
    by_cases hsz : xs.length < len
    · refine ⟨[], ?_, ?_, ?_⟩
      · unfold infixes
        rw [if_neg (by omega), if_pos hsz]
      · show 0 = xs.length + 1 - len
        omega
      · intro i hi
        simp at hi
    · refine ⟨(List.range (xs.length - len + 1)).map
        (fun idx => get_range idx (idx + len) xs), ?_, ?_, ?_⟩
      · unfold infixes
        rw [if_neg (by omega), if_neg hsz]
      · rw [List.length_map, List.length_range]
        omega
      · intro i hi
        rw [List.length_map, List.length_range] at hi
        rw [List.getD_eq_getElem?_getD, List.getElem?_map, List.getElem?_range hi]
        show get_range i (i + len) xs = (xs.drop i).take len
        unfold get_range
        congr 1
        omega

/-- Witness for C8 at len = 2, xs = [1, 2, 3]. -/
theorem infixes_spec_witness :
    ∃ ws, infixes 2 ([1, 2, 3] : List Nat) = some ws ∧
      ws.length = ([1, 2, 3] : List Nat).length + 1 - 2 ∧
      ∀ i, i < ws.length → ws.getD i [] = (([1, 2, 3] : List Nat).drop i).take 2 :=
  (infixes_spec Nat).2 2 [1, 2, 3] (by norm_num)

/-- C9: fill_left(x, m, xs) and fill_right(x, m, xs) return xs unchanged
when size ≥ m, and otherwise return a sequence of length max(m, size)
consisting of m - size copies of x prepended respectively appended to xs,
with xs a contiguous suffix respectively prefix of the result. -/
theorem fill_left_right_spec (α : Type) (x : α) (m : Nat) (xs : List α) :
    (m ≤ xs.length → fill_left x m xs = xs ∧ fill_right x m xs = xs) ∧
    (xs.length < m →
      (fill_left x m xs).length = max m xs.length ∧
      (fill_right x m xs).length = max m xs.length ∧
      fill_left x m xs = List.replicate (m - xs.length) x ++ xs ∧
      fill_right x m xs = xs ++ List.replicate (m - xs.length) x ∧
      (∃ pre, fill_left x m xs = pre ++ xs) ∧
      (∃ post, fill_right x m xs = xs ++ post)) := by
  constructor
  · intro h
    unfold fill_left fill_right
    rw [if_pos h, if_pos h]
    exact ⟨rfl, rfl⟩
  · intro h
    have hnot : ¬ m ≤ xs.length := by omega
    have hL : fill_left x m xs = List.replicate (m - xs.length) x ++ xs := by
      unfold fill_left append replicate
      rw [if_neg hnot]
    have hR : fill_right x m xs = xs ++ List.replicate (m - xs.length) x := by
      unfold fill_right append replicate
      rw [if_neg hnot]
    refine ⟨?_, ?_, hL, hR, ⟨_, hL⟩, ⟨_, hR⟩⟩
    · rw [hL, List.length_append, List.length_replicate]
      omega
    · rw [hR, List.length_append, List.length_replicate]
      omega

/-- Witness for C9 at x = 0, m = 3, xs = [1]. -/
theorem fill_left_right_spec_witness :
    (fill_left (0 : Nat) 3 [1]).length = max 3 ([1] : List Nat).length :=
  ((fill_left_right_spec Nat 0 3 [1]).2 (by norm_num)).1

/-- C10: for every domain, every accumulator (in particular the singleton
tuples built from any input sequence, including the empty one) and every
power p ≥ 1, the recursion of product_idxs_helper reaches its base case
within p recursive calls: the fuelled version of the helper with fuel p
already returns the value of the unbounded recursion.  The four facade
operations are defined from this helper, so they are total on every input
with power ≥ 1. -/
theorem product_idxs_helper_fuel_terminates :
    ∀ (p : Nat), 1 ≤ p → ∀ (xs : List Nat) (acc : List (List Nat)),
      product_idxs_helper_fuel p xs acc p = some (product_idxs_helper xs acc p) := by
  intro p hp
  obtain ⟨k, rfl⟩ : ∃ k, p = k + 1 := ⟨p - 1, by omega⟩
  clear hp
  induction k with
  | zero =>
    intro xs acc
    rw [product_idxs_helper_base]
    rfl
  | succ k ih =>
    intro xs acc
    show product_idxs_helper_fuel (k + 2) xs acc (k + 2) = _
    unfold product_idxs_helper_fuel
    rw [if_neg (by omega)]
    have hdec : dec_size_t (k + 2) = k + 1 := by simp [dec_size_t]
    rw [hdec, ih xs (product_idxs_step xs acc)]
    congr 1
    rw [product_idxs_helper_of_ne xs acc (k + 2) (by omega), hdec]

/-- Witness for C10 at p = 2, xs = [0], acc = [[0]]. -/
theorem product_idxs_helper_fuel_terminates_witness :
    product_idxs_helper_fuel 2 [0] [[0]] 2 = some (product_idxs_helper [0] [[0]] 2) :=
  product_idxs_helper_fuel_terminates 2 (by norm_num) [0] [[0]]

end fplus
